import Mathlib

/-!
Verification development for the rhythmic-grouping and layout core of the
vexflow2 repository (rational durations, auto-beaming, voices, formatter).

The repository ships the auto-beam formatting test suite
(src/tests/auto_beam_formatting_tests.ts) but not the library sources for
Fraction, Beam, Voice and Formatter, so each component below is modelled
from the specification, with the in-repo tests as binding evidence where
they pin concrete behaviour down.
-/

namespace VexFlow

/-! ## Rational Duration (Fraction) -/

/-- Modelled from the spec: the Rational Duration component
(`{numerator, denominator}`, always stored in lowest terms, auto-reduced
via greatest-common-divisor); the library file `fraction.ts` is not under
src/. -/
structure Fraction where
  numerator : Int
  denominator : Int
deriving DecidableEq, Repr

/-- Modelled from the spec: auto-reduction via greatest common divisor. -/
def Fraction.reduce (f : Fraction) : Fraction :=
  { numerator := f.numerator / Int.gcd f.numerator f.denominator
    denominator := f.denominator / Int.gcd f.numerator f.denominator }

/-- Modelled from the spec: exact addition, auto-reduced. -/
def Fraction.add (a b : Fraction) : Fraction :=
  Fraction.reduce
    { numerator := a.numerator * b.denominator + b.numerator * a.denominator
      denominator := a.denominator * b.denominator }

/-- Modelled from the spec: exact subtraction, auto-reduced. -/
def Fraction.subtract (a b : Fraction) : Fraction :=
  Fraction.reduce
    { numerator := a.numerator * b.denominator - b.numerator * a.denominator
      denominator := a.denominator * b.denominator }

/-- The exact rational value of a Fraction. -/
def Fraction.value (f : Fraction) : ℚ := (f.numerator : ℚ) / (f.denominator : ℚ)

/-- Value equality after reduction (cross multiplication). -/
def Fraction.valueEq (a b : Fraction) : Prop :=
  a.numerator * b.denominator = b.numerator * a.denominator

instance (a b : Fraction) : Decidable (a.valueEq b) :=
  inferInstanceAs (Decidable (_ = _))

theorem Fraction.reduce_den_pos (f : Fraction) (hd : 0 < f.denominator) :
    0 < f.reduce.denominator := by
  have hg : (0 : ℤ) < Int.gcd f.numerator f.denominator := by
    have h2 : 0 < Int.gcd f.numerator f.denominator :=
      Int.gcd_pos_of_ne_zero_right f.numerator (by omega)
    exact_mod_cast h2
  have hdvd : (Int.gcd f.numerator f.denominator : ℤ) ∣ f.denominator :=
    Int.gcd_dvd_right
  set g : ℤ := (Int.gcd f.numerator f.denominator : ℤ) with hgdef
  rcases hdvd with ⟨c, hc⟩
  have hcpos : 0 < c := by nlinarith
  have : f.reduce.denominator = c := by
    show f.denominator / g = c
    rw [hc, Int.mul_ediv_cancel_left c (by omega)]
  omega

theorem Fraction.value_reduce (f : Fraction) (hd : 0 < f.denominator) :
    f.reduce.value = f.value := by
  have hg : (0 : ℤ) < Int.gcd f.numerator f.denominator := by
    have h2 : 0 < Int.gcd f.numerator f.denominator :=
      Int.gcd_pos_of_ne_zero_right f.numerator (by omega)
    exact_mod_cast h2
  have hdn : (Int.gcd f.numerator f.denominator : ℤ) ∣ f.numerator := Int.gcd_dvd_left
  have hdd : (Int.gcd f.numerator f.denominator : ℤ) ∣ f.denominator := Int.gcd_dvd_right
  set g : ℤ := (Int.gcd f.numerator f.denominator : ℤ) with hgdef
  rcases hdn with ⟨n, hn⟩
  rcases hdd with ⟨d, hd2⟩
  have hq1 : f.reduce.numerator = n := by
    show f.numerator / g = n
    rw [hn, Int.mul_ediv_cancel_left n (by omega)]
  have hq2 : f.reduce.denominator = d := by
    show f.denominator / g = d
    rw [hd2, Int.mul_ediv_cancel_left d (by omega)]
  show (f.reduce.numerator : ℚ) / (f.reduce.denominator : ℚ)
      = (f.numerator : ℚ) / (f.denominator : ℚ)
  rw [hq1, hq2, hn, hd2]
  push_cast
  rw [mul_div_mul_left (n : ℚ) (d : ℚ) (by exact_mod_cast (by omega : g ≠ 0))]

theorem Fraction.valueEq_iff (a b : Fraction) (ha : 0 < a.denominator)
    (hb : 0 < b.denominator) : a.valueEq b ↔ a.value = b.value := by
  unfold Fraction.valueEq Fraction.value
  rw [div_eq_div_iff (by exact_mod_cast (by omega : a.denominator ≠ 0))
    (by exact_mod_cast (by omega : b.denominator ≠ 0))]
  constructor
  · intro h; exact_mod_cast h
  · intro h; exact_mod_cast h

theorem Fraction.add_den_pos (a b : Fraction) (ha : 0 < a.denominator)
    (hb : 0 < b.denominator) : 0 < (a.add b).denominator :=
  Fraction.reduce_den_pos _ (by positivity)

theorem Fraction.subtract_den_pos (a b : Fraction) (ha : 0 < a.denominator)
    (hb : 0 < b.denominator) : 0 < (a.subtract b).denominator :=
  Fraction.reduce_den_pos _ (by positivity)

theorem Fraction.value_add (a b : Fraction) (ha : 0 < a.denominator)
    (hb : 0 < b.denominator) : (a.add b).value = a.value + b.value := by
  unfold Fraction.add
  rw [Fraction.value_reduce _ (by positivity)]
  unfold Fraction.value
  have ha' : (a.denominator : ℚ) ≠ 0 := by exact_mod_cast (by omega : a.denominator ≠ 0)
  have hb' : (b.denominator : ℚ) ≠ 0 := by exact_mod_cast (by omega : b.denominator ≠ 0)
  push_cast
  field_simp

theorem Fraction.value_subtract (a b : Fraction) (ha : 0 < a.denominator)
    (hb : 0 < b.denominator) : (a.subtract b).value = a.value - b.value := by
  unfold Fraction.subtract
  rw [Fraction.value_reduce _ (by positivity)]
  unfold Fraction.value
  have ha' : (a.denominator : ℚ) ≠ 0 := by exact_mod_cast (by omega : a.denominator ≠ 0)
  have hb' : (b.denominator : ℚ) ≠ 0 := by exact_mod_cast (by omega : b.denominator ≠ 0)
  push_cast
  field_simp
  ring

theorem Fraction.reduce_idem (f : Fraction) (hd : 0 < f.denominator) :
    f.reduce.reduce = f.reduce := by
  have hg : (0 : ℤ) < Int.gcd f.numerator f.denominator := by
    have h2 : 0 < Int.gcd f.numerator f.denominator :=
      Int.gcd_pos_of_ne_zero_right f.numerator (by omega)
    exact_mod_cast h2
  have hgn : 0 < Int.gcd f.numerator f.denominator := by exact_mod_cast hg
  have hco : Int.gcd (f.numerator / Int.gcd f.numerator f.denominator)
      (f.denominator / Int.gcd f.numerator f.denominator) = 1 :=
    Int.gcd_div_gcd_div_gcd hgn
  show Fraction.reduce
      { numerator := f.numerator / Int.gcd f.numerator f.denominator
        denominator := f.denominator / Int.gcd f.numerator f.denominator } = _
  unfold Fraction.reduce
  simp only [hco]
  norm_num

/-- C9: for all valid Rational Durations x and y, adding y to x and then
subtracting y returns a value equal (value equality after reduction) to x,
and reduction is idempotent. -/
theorem C9_fraction_roundtrip_reduce_idem (x y : Fraction)
    (hx : 0 < x.denominator) (hy : 0 < y.denominator) :
    ((x.add y).subtract y).valueEq x ∧ x.reduce.reduce = x.reduce := by
  refine ⟨?_, Fraction.reduce_idem x hx⟩
  have hadd := Fraction.add_den_pos x y hx hy
  rw [Fraction.valueEq_iff _ _ (Fraction.subtract_den_pos _ _ hadd hy) hx,
    Fraction.value_subtract _ _ hadd hy, Fraction.value_add _ _ hx hy]
  ring

/-- Witness for C9 at x = 3/4, y = 5/6. -/
theorem C9_witness :
    Fraction.valueEq
        (((Fraction.mk 3 4).add (Fraction.mk 5 6)).subtract (Fraction.mk 5 6))
        (Fraction.mk 3 4)
      ∧ (Fraction.mk 3 4).reduce.reduce = (Fraction.mk 3 4).reduce :=
  C9_fraction_roundtrip_reduce_idem (Fraction.mk 3 4) (Fraction.mk 5 6)
    (by norm_num) (by norm_num)

/-! ## Tickables and the beam grouping engine

The `Beam` implementation file is not under src/; the engine below is
modelled from the spec (section 4.2), except where the in-repo test
expectations of src/tests/auto_beam_formatting_tests.ts pin the behaviour
down more precisely (stem direction; see `calcStemDirection`).

Durations are measured in integer ticks, 4096 ticks to the whole note (the
library's resolution), so the spec's exact rational durations map to ticks
exactly: an eighth note is 512 ticks, a declared beat group of 3/8 is 1536
ticks. Staff positions are measured in half-line units from the bottom
line, so the middle line (b4 in treble clef, line 3) is 6 half-line
units. -/

/-- Ticks per whole note. -/
def wholeNoteTicks : ℤ := 4096

/-- Ticks per quarter note (the shortest unbeamable duration). -/
def quarterTicks : ℤ := 1024

/-- Modelled from the spec: a Tickable carries a duration (in ticks), rest
status, a pitch-extent descriptor (staff positions in half-line units,
middle line = 6), and a per-note stem direction attribute
(1 = up, -1 = down). -/
structure Tickable where
  duration : ℤ
  isRest : Bool
  lines : List ℤ
  stemDir : Int
deriving DecidableEq, Repr

/-- A note (non-rest) Tickable with a single staff position. -/
def mkNote (d : ℤ) (l : ℤ) : Tickable :=
  { duration := d, isRest := false, lines := [l], stemDir := 1 }

/-- A rest Tickable. -/
def mkRest (d : ℤ) : Tickable :=
  { duration := d, isRest := true, lines := [], stemDir := 1 }

/-- Modelled from the spec: the configuration options of `generateBeams`
that the claims exercise. -/
structure BeamOptions where
  beam_rests : Bool
  maintain_stem_directions : Bool
  stem_direction : Option Int
deriving DecidableEq, Repr

/-- The all-default option set (beam_rests false, no forcing). -/
def defaultBeamOptions : BeamOptions :=
  { beam_rests := false, maintain_stem_directions := false, stem_direction := none }

/-- Modelled from the spec: a duration of a quarter note or longer is too
long to beam. -/
def beamableDur (t : Tickable) : Bool := decide (t.duration < quarterTicks)

/-- Modelled from the spec: a Tickable is beamable unless it is a rest while
`beam_rests` is off, or its duration is a quarter note or longer. -/
def beamableWith (o : BeamOptions) (t : Tickable) : Bool :=
  beamableDur t && (!t.isRest || o.beam_rests)

/-- The summed duration (in ticks) of a list of Tickables. -/
def durSum (ts : List Tickable) : ℤ := (ts.map Tickable.duration).sum

/-- State of the grouping walk: elapsed time, next boundary, remaining
boundary increments of the current cycle, the open group with its start
time, and the closed groups emitted so far (with their time spans). -/
structure WalkState where
  elapsed : ℤ
  nextB : ℤ
  cyc : List ℤ
  curStart : ℤ
  cur : List Tickable
  out : List (ℤ × ℤ × List Tickable)
deriving DecidableEq, Repr

/-- Modelled from the spec: close the open group, emitting it only when it
has at least two members. -/
def closeGroup (s : WalkState) : WalkState :=
  { s with
    out := s.out ++ (if 2 ≤ s.cur.length then [(s.curStart, s.elapsed, s.cur)] else [])
    cur := [] }

/-- Advance the next-boundary value past the elapsed time `e`, cycling
through the declared group durations (`all` is the full declared list,
`cyc` the not-yet-consumed tail of the current cycle). Structural fuel
bounds the number of boundary increments consumed. -/
def advanceB (all : List ℤ) (e : ℤ) : ℕ → ℤ → List ℤ → ℤ × List ℤ
  | 0, b, cyc => (b, cyc)
  | Nat.succ n, b, cyc =>
    if e < b then (b, cyc)
    else
      match cyc, all with
      | [], [] => (b, [])
      | [], g :: rest => advanceB (g :: rest) e n (b + g) rest
      | g :: rest, _ => advanceB all e n (b + g) rest

/-- The smallest declared group duration (used only to size the fuel of
`advanceB`). -/
def minGroupDur : List ℤ → ℤ
  | [] => 1
  | g :: rest => rest.foldl min g

/-- Modelled from the spec: whenever elapsed time reaches or crosses the
next group boundary, close the current open group and move the boundary
past the elapsed time. -/
def checkBoundary (all : List ℤ) (s : WalkState) : WalkState :=
  if s.elapsed < s.nextB then s
  else
    let s2 := closeGroup s
    let fuel := (Int.toNat ((s.elapsed - s.nextB) / minGroupDur all)) + 2
    let r := advanceB all s.elapsed fuel s.nextB s.cyc
    { s2 with nextB := r.1, cyc := r.2 }

/-- Modelled from the spec: one step of the grouping walk. A beamable
Tickable joins the open group (starting a new group at the current elapsed
time if the group was empty); an unbeamable one closes the open group
without joining it. Elapsed time always advances by the Tickable's
duration, after which the boundary is checked. -/
def stepT (all : List ℤ) (o : BeamOptions) (s : WalkState) (t : Tickable) : WalkState :=
  if beamableWith o t then
    checkBoundary all
      { s with
        cur := s.cur ++ [t]
        curStart := if s.cur.isEmpty then s.elapsed else s.curStart
        elapsed := s.elapsed + t.duration }
  else
    checkBoundary all
      { closeGroup s with elapsed := s.elapsed + t.duration }

/-- The initial walk state: the first boundary is the first declared group
duration. -/
def initWalk : List ℤ → WalkState
  | [] =>
    { elapsed := 0, nextB := 0, cyc := [], curStart := 0, cur := [], out := [] }
  | g :: rest =>
    { elapsed := 0, nextB := g, cyc := rest, curStart := 0, cur := [], out := [] }

/-- Run the grouping walk over a Tickable sequence. -/
def runWalk (groups : List ℤ) (o : BeamOptions) (ts : List Tickable) : WalkState :=
  ts.foldl (stepT groups o) (initWalk groups)

/-- The closed groups (with time spans) produced by the walk, the open
group being closed at the end of the sequence. -/
def groupSpans (groups : List ℤ) (o : BeamOptions) (ts : List Tickable) :
    List (ℤ × ℤ × List Tickable) :=
  (closeGroup (runWalk groups o ts)).out

/-- The signed sum, over a group's notes, of the staff-position offsets
from the middle line (6 half-line units). -/
def lineSum (g : List Tickable) : ℤ :=
  (g.map (fun t => ((t.lines.map (fun l => l - 6)).sum))).sum

/-- Stem direction of a closed group when it is re-derived. Modelled from
the in-repo test `oddGroupStemDirections` (and `evenGroupStemDirections`):
the sign of the summed line offsets decides, with a sum of zero
("notes are equidistant from middle line", asserted `Stem.DOWN` by the
test) resolving to down. Down = -1, up = 1. -/
def calcStemDirection (g : List Tickable) : Int :=
  if 0 ≤ lineSum g then -1 else 1

/-- Modelled from the spec: with `maintain_stem_directions`, the direction
is not re-derived; the group keeps the direction of its first beamable
note, propagated across rests. -/
def maintainDirection (g : List Tickable) : Int :=
  match g.find? (fun t => !t.isRest) with
  | some t => t.stemDir
  | none => -1

/-- Modelled from the spec: a forced `stem_direction` option wins; otherwise
`maintain_stem_directions` keeps existing directions; otherwise the
direction is re-derived per group. -/
def resolveDirection (o : BeamOptions) (g : List Tickable) : Int :=
  match o.stem_direction with
  | some d => d
  | none =>
    if o.maintain_stem_directions then maintainDirection g else calcStemDirection g

/-- A resolved beam group: its members, time span and stem direction. -/
structure BeamGroup where
  notes : List Tickable
  start : ℤ
  stop : ℤ
  direction : Int
deriving DecidableEq, Repr

/-- Modelled from the spec: the error kind raised for an impossible beam
configuration. -/
inductive BeamError where
  | invalidBeamConfiguration
deriving DecidableEq, Repr

/-- Modelled from the spec: `generateBeams` walks the Tickable sequence,
closing groups at declared boundaries and at unbeamable Tickables, then
resolves each closed group's stem direction. A degenerate declared groups
list (empty, or containing a non-positive duration) is an invalid beam
configuration; the in-repo test `groupWithUnbeamableNote` shows that a
groups list whose sum does not match the input's total duration is
accepted (boundaries beyond the total are never reached). -/
def generateBeams (ts : List Tickable) (o : BeamOptions) (groups : List ℤ) :
    Except BeamError (List BeamGroup) :=
  if groups.isEmpty || groups.any (fun g => decide (g ≤ 0)) then
    .error .invalidBeamConfiguration
  else
    .ok ((groupSpans groups o ts).map (fun sp =>
      { notes := sp.2.2, start := sp.1, stop := sp.2.1
        direction := resolveDirection o sp.2.2 }))

/-- Modelled from the spec: default beam groups derived from the governing
time signature (in ticks); simple meters group by the beat unit, compound
meters by the dotted-beat unit. -/
def getDefaultBeamGroups (num den : ℕ) : List ℤ :=
  if num % 3 = 0 ∧ 6 ≤ num then [3 * (4096 / (den : ℤ))] else [4096 / (den : ℤ)]

/-- The list of group member lists of a `generateBeams` result (empty on
error). -/
def beamNotes (r : Except BeamError (List BeamGroup)) : List (List Tickable) :=
  (r.toOption.getD []).map BeamGroup.notes

/-! ## Spec-side stem direction rule (for claim C1)

The following definitions transcribe the claim's words, to be compared
with the engine; they are deliberately NOT the engine's rule. -/

/-- A note lies above the middle line when its whole pitch extent is
strictly above position 6. -/
def noteAboveMiddle (t : Tickable) : Bool :=
  (!t.lines.isEmpty) && t.lines.all (fun l => decide (6 < l))

/-- A note lies below the middle line when its whole pitch extent is
strictly below position 6. -/
def noteBelowMiddle (t : Tickable) : Bool :=
  (!t.lines.isEmpty) && t.lines.all (fun l => decide (l < 6))

/-- The claim's stem direction rule, stated as written: majority vote of
the notes' pitch extents relative to the middle line (strictly more above
gives down, strictly more below gives up), an exact balance broken by the
side of the group's first note. -/
def specMajorityDirection (g : List Tickable) : Int :=
  let above := (g.filter noteAboveMiddle).length
  let below := (g.filter noteBelowMiddle).length
  if below < above then -1
  else if above < below then 1
  else
    match g with
    | [] => -1
    | t :: _ => if noteAboveMiddle t then -1 else 1

/-! ## Declared boundary sequence (for claim C3) -/

/-- The i-th increment of the declared groups list, repeated cyclically. -/
def cycleNth (groups : List ℤ) (i : ℕ) : ℤ :=
  groups.getD (i % groups.length) 0

/-- The i-th declared boundary: the sum of the first i cyclic increments
(boundary 0 is the start of the sequence). -/
def boundaryAt (groups : List ℤ) : ℕ → ℤ
  | 0 => 0
  | n + 1 => boundaryAt groups n + cycleNth groups n

/-- A time span lies within one declared boundary interval. -/
def spanWithin (groups : List ℤ) (s e : ℤ) : Prop :=
  ∃ i, boundaryAt groups i ≤ s ∧ e ≤ boundaryAt groups (i + 1)

/-! ## Concrete inputs from src/tests/auto_beam_formatting_tests.ts -/

/-- The fifteen eighth notes of the `oddGroupStemDirections` test
(g4, b4, d5, c5, f4, d5, e4, g5, g4, b4, g4, d5, a4, c5, a4 as staff
positions in half-line units, middle line b4 = 6). -/
def oddGroupNotes : List Tickable :=
  [mkNote 512 4, mkNote 512 6, mkNote 512 8,
   mkNote 512 7, mkNote 512 3, mkNote 512 8,
   mkNote 512 2, mkNote 512 11, mkNote 512 4,
   mkNote 512 6, mkNote 512 4, mkNote 512 8,
   mkNote 512 5, mkNote 512 7, mkNote 512 5]

/-- The beam groups the engine emits for the `oddGroupStemDirections`
input (groups option [3/8] = 1536 ticks, default options). -/
def oddGroupBeams : List BeamGroup :=
  (generateBeams oddGroupNotes defaultBeamOptions [1536]).toOption.getD []

/-- A default placeholder beam group. -/
def noBeam : BeamGroup :=
  { notes := [], start := 0, stop := 0, direction := -1 }

set_option maxRecDepth 4000 in
/-- C1 counterexample: on the `oddGroupStemDirections` input the engine's
first closed group is g4, b4, d5 and resolves to stems-down (-1), exactly
as the repo's test asserts ("Notes are equidistant from middle line"),
while the claim's majority-vote rule with the first-note tie-break
resolves it to stems-up (1): one note above, one below, tie, and the first
note g4 lies below the middle line. -/
theorem C1_counterexample :
    oddGroupBeams.map BeamGroup.direction = [-1, -1, 1, -1, 1]
    ∧ (oddGroupBeams.getD 0 noBeam).notes = [mkNote 512 4, mkNote 512 6, mkNote 512 8]
    ∧ (oddGroupBeams.getD 0 noBeam).direction = -1
    ∧ specMajorityDirection ((oddGroupBeams.getD 0 noBeam).notes) = 1 := by
  decide

/-- C1 (amended): without `maintain_stem_directions` and without a forced
stem direction, every beam group closed by `generateBeams` resolves its
stem direction by the signed sum of the notes' staff-position offsets from
the middle line (a distance-weighted vote): a non-negative sum gives
stems-down, a negative sum gives stems-up. -/
theorem C1_stem_direction_by_line_sum (ts : List Tickable) (o : BeamOptions)
    (groups : List ℤ) (bs : List BeamGroup) (hsd : o.stem_direction = none)
    (hm : o.maintain_stem_directions = false)
    (h : generateBeams ts o groups = .ok bs) :
    ∀ b ∈ bs, b.direction = calcStemDirection b.notes := by
  intro b hb
  unfold generateBeams at h
  split at h
  · exact absurd h (by simp)
  · rw [Except.ok.injEq] at h
    rw [← h] at hb
    rcases List.mem_map.mp hb with ⟨sp, hsp, hspb⟩
    rw [← hspb]
    simp [resolveDirection, hsd, hm]

set_option maxRecDepth 4000 in
/-- Witness for C1 at the first beam group of the
`oddGroupStemDirections` input. -/
theorem C1_witness :
    (oddGroupBeams.getD 0 noBeam).direction
      = calcStemDirection (oddGroupBeams.getD 0 noBeam).notes :=
  C1_stem_direction_by_line_sum oddGroupNotes defaultBeamOptions [1536]
    oddGroupBeams rfl rfl rfl (oddGroupBeams.getD 0 noBeam) (by decide)

/-- The sixteen consecutive sixteenth notes of a 4/4 measure (claim C2). -/
def sixteenSixteenths : List Tickable := List.replicate 16 (mkNote 256 10)

set_option maxRecDepth 4000 in
/-- C2: a 4/4 measure of sixteen consecutive sixteenth notes with the
default time-signature-derived grouping produces exactly 4 beam groups of
exactly 4 notes each. -/
theorem C2_sixteen_sixteenths_default_grouping :
    (generateBeams sixteenSixteenths defaultBeamOptions
        (getDefaultBeamGroups 4 4)).toOption.map
      (List.map (fun b => b.notes.length)) = some [4, 4, 4, 4] := by
  decide

/-! ## Claim C3: group spans versus declared boundaries -/

/-- One step of the alignment check: the walk step paired with a flag that
stays true only while no Tickable carries elapsed time strictly past the
next declared boundary. -/
def stepAligned (all : List ℤ) (o : BeamOptions) (p : Bool × WalkState)
    (t : Tickable) : Bool × WalkState :=
  (p.1 && decide (p.2.elapsed + t.duration ≤ p.2.nextB), stepT all o p.2 t)

/-- No Tickable of the sequence straddles a declared boundary. -/
def alignedRun (groups : List ℤ) (o : BeamOptions) (ts : List Tickable) : Bool :=
  (ts.foldl (stepAligned groups o) (true, initWalk groups)).1

/-- Relation between a boundary index and the walk's remaining cycle. -/
def cycOK (groups : List ℤ) (j : ℕ) (cyc : List ℤ) : Prop :=
  cyc = groups.drop (j % groups.length) ∨ (j % groups.length = 0 ∧ cyc = [])

/-- Invariant of the grouping walk on aligned input. -/
def WalkInv (groups : List ℤ) (s : WalkState) : Prop :=
  ∃ i, s.nextB = boundaryAt groups (i + 1)
    ∧ cycOK groups (i + 1) s.cyc
    ∧ boundaryAt groups i ≤ s.elapsed
    ∧ s.elapsed < s.nextB
    ∧ (s.cur = [] ∨ (boundaryAt groups i ≤ s.curStart ∧ s.curStart ≤ s.elapsed))
    ∧ (∀ sp ∈ s.out, spanWithin groups sp.1 sp.2.1)

theorem cycleNth_mem (groups : List ℤ) (hne : groups ≠ []) (j : ℕ) :
    cycleNth groups j ∈ groups := by
  unfold cycleNth
  have hlen : 0 < groups.length := List.length_pos.mpr hne
  have hj : j % groups.length < groups.length := Nat.mod_lt _ hlen
  rw [List.getD_eq_getElem groups 0 hj]
  exact List.getElem_mem hj

theorem cycleNth_pos (groups : List ℤ) (hne : groups ≠ [])
    (hpos : ∀ g ∈ groups, 0 < g) (j : ℕ) : 0 < cycleNth groups j :=
  hpos _ (cycleNth_mem groups hne j)

theorem boundaryAt_lt_succ (groups : List ℤ) (hne : groups ≠ [])
    (hpos : ∀ g ∈ groups, 0 < g) (i : ℕ) :
    boundaryAt groups i < boundaryAt groups (i + 1) := by
  show boundaryAt groups i < boundaryAt groups i + cycleNth groups i
  have := cycleNth_pos groups hne hpos i
  omega

theorem boundary_single (g : ℤ) (i : ℕ) : boundaryAt [g] i = g * i := by
  induction i with
  | zero => simp [boundaryAt]
  | succ n ih =>
    show boundaryAt [g] n + cycleNth [g] n = g * (n + 1 : ℕ)
    rw [ih]
    unfold cycleNth
    simp [Nat.mod_one]
    ring

theorem mod_add_two (i n : ℕ) : (i + 2) % n = ((i + 1) % n + 1) % n := by
  conv_lhs => rw [show i + 2 = (i + 1) + 1 from rfl, Nat.add_mod]
  rw [Nat.add_mod ((i + 1) % n) 1 n, Nat.mod_mod_of_dvd _ dvd_rfl]

theorem advanceB_at_boundary (groups : List ℤ) (hne : groups ≠ [])
    (hpos : ∀ g ∈ groups, 0 < g) (i : ℕ) (cyc : List ℤ)
    (hcyc : cycOK groups (i + 1) cyc) :
    ∃ cyc2,
      advanceB groups (boundaryAt groups (i + 1)) 2 (boundaryAt groups (i + 1)) cyc
          = (boundaryAt groups (i + 2), cyc2)
      ∧ cycOK groups (i + 2) cyc2 := by
  have hlen : 0 < groups.length := List.length_pos.mpr hne
  have hstep : boundaryAt groups (i + 2)
      = boundaryAt groups (i + 1) + cycleNth groups (i + 1) := rfl
  rcases hcyc with hcyc | ⟨hm0, hcyc⟩
  · -- mid-cycle: the remaining cycle is a nonempty drop of the groups list
    have hm : (i + 1) % groups.length < groups.length := Nat.mod_lt _ hlen
    have hdrop := List.drop_eq_getElem_cons hm
    rw [hdrop] at hcyc
    refine ⟨groups.drop ((i + 1) % groups.length + 1), ?_, ?_⟩
    · rw [hcyc]
      show advanceB groups (boundaryAt groups (i + 1)) 2 (boundaryAt groups (i + 1))
        (groups[(i + 1) % groups.length] :: groups.drop ((i + 1) % groups.length + 1)) = _
      unfold advanceB
      rw [if_neg (by omega)]
      unfold advanceB
      have hg : groups[(i + 1) % groups.length] = cycleNth groups (i + 1) := by
        unfold cycleNth
        rw [List.getD_eq_getElem groups 0 hm]
      have hgpos : 0 < cycleNth groups (i + 1) := cycleNth_pos groups hne hpos _
      rw [if_pos (by omega)]
      rw [hg, hstep]
    · by_cases hlast : (i + 1) % groups.length + 1 < groups.length
      · left
        have : (i + 2) % groups.length = (i + 1) % groups.length + 1 := by
          rw [mod_add_two]
          exact Nat.mod_eq_of_lt hlast
        rw [this]
      · right
        have heq : (i + 1) % groups.length + 1 = groups.length := by omega
        constructor
        · rw [mod_add_two, heq, Nat.mod_self]
        · rw [heq, List.drop_length]
  · -- cycle exhausted: refill from the full groups list
    rcases groups with _ | ⟨g0, rest⟩
    · exact absurd rfl hne
    refine ⟨rest, ?_, ?_⟩
    · rw [hcyc]
      show advanceB (g0 :: rest) (boundaryAt (g0 :: rest) (i + 1)) 2
        (boundaryAt (g0 :: rest) (i + 1)) [] = _
      unfold advanceB
      rw [if_neg (by omega)]
      unfold advanceB
      have hg : cycleNth (g0 :: rest) (i + 1) = g0 := by
        unfold cycleNth
        rw [hm0]
        rfl
      have hgpos : 0 < cycleNth (g0 :: rest) (i + 1) :=
        cycleNth_pos _ hne hpos _
      rw [if_pos (by omega)]
      rw [hstep, hg]
    · by_cases h1 : rest = []
      · right
        subst h1
        constructor
        · simp
          omega
        · rfl
      · left
        have hlen2 : 2 ≤ (g0 :: rest).length := by
          cases rest with
          | nil => exact absurd rfl h1
          | cons a b => simp
        have : (i + 2) % (g0 :: rest).length = 1 := by
          rw [mod_add_two, hm0]
          exact Nat.mod_eq_of_lt (by omega)
        rw [this]
        rfl

theorem checkBoundary_of_lt (all : List ℤ) (s : WalkState)
    (h : s.elapsed < s.nextB) : checkBoundary all s = s := by
  unfold checkBoundary
  rw [if_pos h]

theorem checkBoundary_at_boundary (groups : List ℤ) (hne : groups ≠ [])
    (hpos : ∀ g ∈ groups, 0 < g) (s : WalkState) (i : ℕ)
    (hB : s.nextB = boundaryAt groups (i + 1)) (he : s.elapsed = s.nextB)
    (hcyc : cycOK groups (i + 1) s.cyc) :
    ∃ cyc2,
      checkBoundary groups s
          = { elapsed := s.elapsed, nextB := boundaryAt groups (i + 2), cyc := cyc2,
              curStart := s.curStart, cur := [],
              out := s.out
                ++ (if 2 ≤ s.cur.length then [(s.curStart, s.elapsed, s.cur)] else []) }
      ∧ cycOK groups (i + 2) cyc2 := by
  have hfuel : (Int.toNat ((s.elapsed - s.nextB) / minGroupDur groups)) + 2 = 2 := by
    rw [he, sub_self, Int.zero_ediv, Int.toNat_zero]
  obtain ⟨cyc2, hadv, hok⟩ := advanceB_at_boundary groups hne hpos i s.cyc hcyc
  have hadv2 : advanceB groups s.elapsed
      ((Int.toNat ((s.elapsed - s.nextB) / minGroupDur groups)) + 2) s.nextB s.cyc
      = (boundaryAt groups (i + 2), cyc2) := by
    rw [hfuel, he, hB]
    exact hadv
  refine ⟨cyc2, ?_, hok⟩
  unfold checkBoundary
  rw [if_neg (by omega)]
  simp only [hadv2, closeGroup]

theorem emission_spans (groups : List ℤ) (i : ℕ) (cs e : ℤ) (cur : List Tickable)
    (out : List (ℤ × ℤ × List Tickable))
    (hcur : cur = [] ∨ (boundaryAt groups i ≤ cs ∧ cs ≤ e))
    (he : e ≤ boundaryAt groups (i + 1))
    (hout : ∀ sp ∈ out, spanWithin groups sp.1 sp.2.1) :
    ∀ sp ∈ out ++ (if 2 ≤ cur.length then [(cs, e, cur)] else []),
      spanWithin groups sp.1 sp.2.1 := by
  intro sp hsp
  rcases List.mem_append.mp hsp with h | h
  · exact hout sp h
  · by_cases hl : 2 ≤ cur.length
    · rw [if_pos hl] at h
      have hsp2 : sp = (cs, e, cur) := List.mem_singleton.mp h
      subst hsp2
      have hne2 : cur ≠ [] := by
        intro h0
        rw [h0] at hl
        simp at hl
      rcases hcur with h0 | ⟨h1, h2⟩
      · exact absurd h0 hne2
      · exact ⟨i, h1, he⟩
    · rw [if_neg hl] at h
      simp at h

theorem stepT_inv (groups : List ℤ) (o : BeamOptions) (hne : groups ≠ [])
    (hpos : ∀ g ∈ groups, 0 < g) (s : WalkState) (t : Tickable)
    (hd : 0 ≤ t.duration) (hal : s.elapsed + t.duration ≤ s.nextB)
    (hinv : WalkInv groups s) : WalkInv groups (stepT groups o s t) := by
  rcases hinv with ⟨i, hB, hcyc, hlo, hhi, hcur, hout⟩
  have hcsb : boundaryAt groups i ≤ (if s.cur.isEmpty then s.elapsed else s.curStart)
      ∧ (if s.cur.isEmpty then s.elapsed else s.curStart) ≤ s.elapsed := by
    by_cases hce : s.cur.isEmpty = true
    · rw [if_pos hce]
      exact ⟨hlo, le_refl _⟩
    · rw [if_neg hce]
      rcases hcur with h0 | ⟨h1, h2⟩
      · rw [h0] at hce
        simp at hce
      · exact ⟨h1, h2⟩
  unfold stepT
  by_cases hb : beamableWith o t = true
  · rw [if_pos hb]
    by_cases hlt : s.elapsed + t.duration < s.nextB
    · rw [checkBoundary_of_lt groups _ hlt]
      refine ⟨i, hB, hcyc, ?_, hlt, ?_, hout⟩
      · show boundaryAt groups i ≤ s.elapsed + t.duration
        omega
      · right
        show boundaryAt groups i ≤ (if s.cur.isEmpty then s.elapsed else s.curStart)
            ∧ (if s.cur.isEmpty then s.elapsed else s.curStart) ≤ s.elapsed + t.duration
        omega
    · have he2 : s.elapsed + t.duration = s.nextB := by omega
      obtain ⟨cyc2, hcb, hok⟩ := checkBoundary_at_boundary groups hne hpos
        { s with
          cur := s.cur ++ [t]
          curStart := if s.cur.isEmpty then s.elapsed else s.curStart
          elapsed := s.elapsed + t.duration } i hB he2 hcyc
      rw [hcb]
      have hlt2 : boundaryAt groups (i + 1) < boundaryAt groups (i + 2) :=
        boundaryAt_lt_succ groups hne hpos (i + 1)
      refine ⟨i + 1, rfl, hok, ?_, ?_, Or.inl rfl, ?_⟩
      · show boundaryAt groups (i + 1) ≤ s.elapsed + t.duration
        omega
      · show s.elapsed + t.duration < boundaryAt groups (i + 2)
        omega
      · show ∀ sp ∈ s.out ++ (if 2 ≤ (s.cur ++ [t]).length then
            [(if s.cur.isEmpty then s.elapsed else s.curStart,
              s.elapsed + t.duration, s.cur ++ [t])] else []),
          spanWithin groups sp.1 sp.2.1
        refine emission_spans groups i _ _ _ _ ?_ (by omega) hout
        right
        exact ⟨hcsb.1, by omega⟩
  · rw [if_neg hb]
    by_cases hlt : s.elapsed + t.duration < s.nextB
    · rw [checkBoundary_of_lt groups _ hlt]
      refine ⟨i, hB, hcyc, ?_, hlt, Or.inl rfl, ?_⟩
      · show boundaryAt groups i ≤ s.elapsed + t.duration
        omega
      · show ∀ sp ∈ s.out ++ (if 2 ≤ s.cur.length then
            [(s.curStart, s.elapsed, s.cur)] else []), spanWithin groups sp.1 sp.2.1
        exact emission_spans groups i _ _ _ _ hcur (by omega) hout
    · have he2 : s.elapsed + t.duration = s.nextB := by omega
      obtain ⟨cyc2, hcb, hok⟩ := checkBoundary_at_boundary groups hne hpos
        { closeGroup s with elapsed := s.elapsed + t.duration } i hB he2 hcyc
      rw [hcb]
      have hlt2 : boundaryAt groups (i + 1) < boundaryAt groups (i + 2) :=
        boundaryAt_lt_succ groups hne hpos (i + 1)
      refine ⟨i + 1, rfl, hok, ?_, ?_, Or.inl rfl, ?_⟩
      · show boundaryAt groups (i + 1) ≤ s.elapsed + t.duration
        omega
      · show s.elapsed + t.duration < boundaryAt groups (i + 2)
        omega
      · show ∀ sp ∈ (s.out
            ++ (if 2 ≤ s.cur.length then [(s.curStart, s.elapsed, s.cur)] else []))
            ++ (if 2 ≤ ([] : List Tickable).length then
              [(s.curStart, s.elapsed + t.duration, ([] : List Tickable))] else []),
          spanWithin groups sp.1 sp.2.1
        intro sp hsp
        rw [if_neg (show ¬ (2 ≤ ([] : List Tickable).length) by simp),
          List.append_nil] at hsp
        exact emission_spans groups i _ _ _ _ hcur (by omega) hout sp hsp

theorem foldl_stepAligned_false (groups : List ℤ) (o : BeamOptions)
    (ts : List Tickable) (s : WalkState) :
    (ts.foldl (stepAligned groups o) (false, s)).1 = false := by
  induction ts generalizing s with
  | nil => rfl
  | cons t ts ih =>
    rw [List.foldl_cons]
    show (ts.foldl (stepAligned groups o)
      (false && decide (s.elapsed + t.duration ≤ s.nextB), stepT groups o s t)).1 = false
    rw [Bool.false_and]
    exact ih _

theorem foldl_walk_inv (groups : List ℤ) (o : BeamOptions) (hne : groups ≠ [])
    (hpos : ∀ g ∈ groups, 0 < g) (ts : List Tickable) :
    ∀ s : WalkState, (∀ t ∈ ts, 0 ≤ t.duration) → WalkInv groups s →
      (ts.foldl (stepAligned groups o) (true, s)).1 = true →
      WalkInv groups (ts.foldl (stepT groups o) s) := by
  induction ts with
  | nil =>
    intro s _ h _
    exact h
  | cons t ts ih =>
    intro s hdur hinv hflag
    rw [List.foldl_cons] at hflag ⊢
    have hstep : stepAligned groups o (true, s) t
        = (decide (s.elapsed + t.duration ≤ s.nextB), stepT groups o s t) := by
      unfold stepAligned
      rw [Bool.true_and]
    by_cases hc : s.elapsed + t.duration ≤ s.nextB
    · have h2 : stepAligned groups o (true, s) t = (true, stepT groups o s t) := by
        rw [hstep, decide_eq_true hc]
      rw [h2] at hflag
      exact ih (stepT groups o s t)
        (fun x hx => hdur x (List.mem_cons_of_mem _ hx))
        (stepT_inv groups o hne hpos s t (hdur t (List.mem_cons_self _ _)) hc hinv)
        hflag
    · exfalso
      have h2 : stepAligned groups o (true, s) t = (false, stepT groups o s t) := by
        rw [hstep, decide_eq_false hc]
      rw [h2, foldl_stepAligned_false] at hflag
      exact Bool.false_ne_true hflag

theorem initWalk_inv (groups : List ℤ) (hne : groups ≠ [])
    (hpos : ∀ g ∈ groups, 0 < g) : WalkInv groups (initWalk groups) := by
  rcases groups with _ | ⟨g, rest⟩
  · exact absurd rfl hne
  refine ⟨0, ?_, ?_, le_refl _, ?_, Or.inl rfl, ?_⟩
  · show g = boundaryAt (g :: rest) 0 + cycleNth (g :: rest) 0
    unfold boundaryAt cycleNth
    simp
  · rcases rest with _ | ⟨a, r2⟩
    · right
      exact ⟨Nat.mod_self 1, rfl⟩
    · left
      have h1 : 1 % (g :: a :: r2).length = 1 := Nat.mod_eq_of_lt (by simp)
      rw [h1]
      rfl
  · show (0 : ℤ) < g
    exact hpos g (List.mem_cons_self _ _)
  · intro sp hsp
    exact absurd hsp (List.not_mem_nil sp)

theorem groupSpans_within (groups : List ℤ) (o : BeamOptions) (ts : List Tickable)
    (hne : groups ≠ []) (hpos : ∀ g ∈ groups, 0 < g)
    (hdur : ∀ t ∈ ts, 0 ≤ t.duration) (hal : alignedRun groups o ts = true) :
    ∀ sp ∈ groupSpans groups o ts, spanWithin groups sp.1 sp.2.1 := by
  have hinv : WalkInv groups (runWalk groups o ts) :=
    foldl_walk_inv groups o hne hpos ts (initWalk groups) hdur
      (initWalk_inv groups hne hpos) hal
  rcases hinv with ⟨i, hB, hcyc, hlo, hhi, hcur, hout⟩
  show ∀ sp ∈ (runWalk groups o ts).out
      ++ (if 2 ≤ (runWalk groups o ts).cur.length then
        [((runWalk groups o ts).curStart, (runWalk groups o ts).elapsed,
          (runWalk groups o ts).cur)] else []), spanWithin groups sp.1 sp.2.1
  exact emission_spans groups i _ _ _ _ hcur (by omega) hout

/-- Three beamable notes (eighth, eighth, dotted eighth) whose last note
straddles the declared 3/8 boundary. -/
def straddleNotes : List Tickable :=
  [mkNote 512 10, mkNote 512 10, mkNote 768 10]

/-- C3 counterexample: with declared groups [3/8] (1536 ticks) and input
eighth, eighth, dotted-eighth, the engine emits one group of all three
notes spanning 0 to 1792 ticks, which crosses the declared boundary at
1536: the span lies within no declared boundary interval. -/
theorem C3_counterexample :
    ((generateBeams straddleNotes defaultBeamOptions [1536]).toOption.map
      (List.map (fun b => (b.start, b.stop, b.notes.length))) = some [(0, 1792, 3)])
    ∧ ¬ spanWithin [1536] 0 1792 := by
  constructor
  · decide
  · rintro ⟨i, h1, h2⟩
    rw [boundary_single] at h1
    rw [boundary_single] at h2
    omega

/-- C3 (amended): when no Tickable of the input straddles a declared
boundary (every boundary the walk reaches falls at or after the current
Tickable's end, checked by `alignedRun`), every beam group emitted by
`generateBeams` has its time span within one declared boundary interval.
The counterexample shows the claim fails as stated when a note straddles
a boundary. -/
theorem C3_groups_follow_declared_boundaries (groups : List ℤ) (o : BeamOptions)
    (ts : List Tickable) (bs : List BeamGroup)
    (hdur : ∀ t ∈ ts, 0 ≤ t.duration)
    (hal : alignedRun groups o ts = true)
    (h : generateBeams ts o groups = .ok bs) :
    ∀ b ∈ bs, spanWithin groups b.start b.stop := by
  unfold generateBeams at h
  split at h
  · exact absurd h (by simp)
  · rename_i hguard
    have hne : groups ≠ [] := by
      intro h0
      subst h0
      simp at hguard
    have hpos : ∀ g ∈ groups, 0 < g := by
      intro g hg
      by_contra hle
      push_neg at hle
      have hany : groups.any (fun g => decide (g ≤ 0)) = true :=
        List.any_eq_true.mpr ⟨g, hg, decide_eq_true hle⟩
      exact hguard (by rw [hany, Bool.or_true])
    rw [Except.ok.injEq] at h
    intro b hb
    rw [← h] at hb
    rcases List.mem_map.mp hb with ⟨sp, hsp, hspb⟩
    rw [← hspb]
    exact groupSpans_within groups o ts hne hpos hdur hal sp hsp

/-- The 4/4 measure of the `beamingWithSeveralGroups1` test: c4/8, g4/4
(unbeamable), then five eighth notes, with declared groups
[3/8, 3/8, 2/8]. -/
def severalGroupsNotes : List Tickable :=
  [mkNote 512 0, mkNote 1024 4, mkNote 512 7, mkNote 512 11,
   mkNote 512 12, mkNote 512 12, mkNote 512 10]

/-- The beam groups the engine emits for the `beamingWithSeveralGroups1`
input. -/
def severalGroupsBeams : List BeamGroup :=
  (generateBeams severalGroupsNotes defaultBeamOptions [1536, 1536, 1024]).toOption.getD []

set_option maxRecDepth 4000 in
/-- Witness for C3 at the first beam group of the
`beamingWithSeveralGroups1` input. -/
theorem C3_witness :
    spanWithin [1536, 1536, 1024] (severalGroupsBeams.getD 0 noBeam).start
      (severalGroupsBeams.getD 0 noBeam).stop :=
  C3_groups_follow_declared_boundaries [1536, 1536, 1024] defaultBeamOptions
    severalGroupsNotes severalGroupsBeams (by decide) (by decide) rfl
    (severalGroupsBeams.getD 0 noBeam) (by decide)

/-! ## Claim C4: rests splitting or spanning beams -/

theorem durSum_cons (t : Tickable) (L : List Tickable) :
    durSum (t :: L) = t.duration + durSum L := by
  unfold durSum
  rw [List.map_cons, List.sum_cons]

theorem durSum_append (L1 L2 : List Tickable) :
    durSum (L1 ++ L2) = durSum L1 + durSum L2 := by
  unfold durSum
  rw [List.map_append, List.sum_append]

theorem durSum_nonneg (L : List Tickable) (h : ∀ t ∈ L, 0 ≤ t.duration) :
    0 ≤ durSum L := by
  induction L with
  | nil => simp [durSum]
  | cons t L ih =>
    rw [durSum_cons]
    have h1 := h t (List.mem_cons_self _ _)
    have h2 := ih (fun x hx => h x (List.mem_cons_of_mem _ hx))
    omega

theorem foldl_beamable_below (groups : List ℤ) (o : BeamOptions) (L : List Tickable) :
    ∀ s : WalkState, (∀ t ∈ L, beamableWith o t = true) →
      (∀ t ∈ L, 0 ≤ t.duration) →
      s.elapsed + durSum L < s.nextB →
      s.cur ≠ [] →
      L.foldl (stepT groups o) s
        = { s with cur := s.cur ++ L, elapsed := s.elapsed + durSum L } := by
  induction L with
  | nil =>
    intro s _ _ _ _
    show s = { s with cur := s.cur ++ [], elapsed := s.elapsed + durSum [] }
    simp [durSum]
  | cons t L ih =>
    intro s hbm hd hsum hcur
    rw [List.foldl_cons]
    have hbt : beamableWith o t = true := hbm t (List.mem_cons_self _ _)
    have hdt : 0 ≤ t.duration := hd t (List.mem_cons_self _ _)
    have hdsum : 0 ≤ durSum L :=
      durSum_nonneg L (fun x hx => hd x (List.mem_cons_of_mem _ hx))
    rw [durSum_cons] at hsum
    have hemp : s.cur.isEmpty = false := by
      cases hce : s.cur.isEmpty
      · rfl
      · exact absurd (List.isEmpty_iff.mp hce) hcur
    have hstep : stepT groups o s t
        = { s with cur := s.cur ++ [t], elapsed := s.elapsed + t.duration } := by
      unfold stepT
      rw [if_pos hbt]
      rw [checkBoundary_of_lt groups _ (by show s.elapsed + t.duration < s.nextB; omega)]
      have hcs : (if s.cur.isEmpty then s.elapsed else s.curStart) = s.curStart := by
        simp [hemp]
      rw [hcs]
    rw [hstep]
    rw [ih _ (fun x hx => hbm x (List.mem_cons_of_mem _ hx))
      (fun x hx => hd x (List.mem_cons_of_mem _ hx))
      (by show s.elapsed + t.duration + durSum L < s.nextB; omega)
      (by simp)]
    show ({ s with
        cur := (s.cur ++ [t]) ++ L
        elapsed := s.elapsed + t.duration + durSum L } : WalkState) = _
    rw [List.append_assoc, List.singleton_append, add_assoc, durSum_cons]

theorem foldl_beamable_fresh (groups : List ℤ) (o : BeamOptions) (L : List Tickable)
    (s : WalkState) (hbm : ∀ t ∈ L, beamableWith o t = true)
    (hd : ∀ t ∈ L, 0 ≤ t.duration) (hsum : s.elapsed + durSum L < s.nextB)
    (hne : L ≠ []) (hcur : s.cur = []) :
    L.foldl (stepT groups o) s
      = { s with cur := L, curStart := s.elapsed, elapsed := s.elapsed + durSum L } := by
  rcases L with _ | ⟨t, L⟩
  · exact absurd rfl hne
  rw [List.foldl_cons]
  have hbt : beamableWith o t = true := hbm t (List.mem_cons_self _ _)
  have hdt : 0 ≤ t.duration := hd t (List.mem_cons_self _ _)
  have hdsum : 0 ≤ durSum L :=
    durSum_nonneg L (fun x hx => hd x (List.mem_cons_of_mem _ hx))
  rw [durSum_cons] at hsum
  have hemp : s.cur.isEmpty = true := by
    rw [hcur]
    rfl
  have hstep : stepT groups o s t
      = { s with
          cur := s.cur ++ [t]
          curStart := s.elapsed
          elapsed := s.elapsed + t.duration } := by
    unfold stepT
    rw [if_pos hbt]
    rw [checkBoundary_of_lt groups _ (by show s.elapsed + t.duration < s.nextB; omega)]
    have hcs : (if s.cur.isEmpty then s.elapsed else s.curStart) = s.elapsed := by
      simp [hemp]
    rw [hcs]
  rw [hstep]
  by_cases hL : L = []
  · subst hL
    rw [hcur]
    show ({ s with
        cur := [] ++ [t]
        curStart := s.elapsed
        elapsed := s.elapsed + t.duration } : WalkState) = _
    rw [durSum_cons]
    simp [durSum]
  · rw [foldl_beamable_below groups o L _
      (fun x hx => hbm x (List.mem_cons_of_mem _ hx))
      (fun x hx => hd x (List.mem_cons_of_mem _ hx))
      (by show s.elapsed + t.duration + durSum L < s.nextB; omega)
      (by simp)]
    show ({ s with
        cur := (s.cur ++ [t]) ++ L
        curStart := s.elapsed
        elapsed := s.elapsed + t.duration + durSum L } : WalkState) = _
    rw [List.append_assoc, List.singleton_append, add_assoc, durSum_cons, hcur]
    rfl

/-- The option set with rests included in beams. -/
def beamRestsOptions : BeamOptions :=
  { beam_rests := true, maintain_stem_directions := false, stem_direction := none }

theorem beamNotes_ok (bs : List BeamGroup) :
    beamNotes (.ok bs) = bs.map BeamGroup.notes := rfl

theorem beamableWith_note (o : BeamOptions) (t : Tickable) (h : t.isRest = false)
    (hb : beamableDur t = true) : beamableWith o t = true := by
  unfold beamableWith
  rw [h, hb]
  rfl

theorem beamableWith_rest_false (t : Tickable) (h : t.isRest = true) :
    beamableWith defaultBeamOptions t = false := by
  unfold beamableWith defaultBeamOptions
  rw [h]
  simp

theorem beamableWith_rest_true (t : Tickable) (h : t.isRest = true)
    (hb : beamableDur t = true) : beamableWith beamRestsOptions t = true := by
  unfold beamableWith beamRestsOptions
  rw [h, hb]
  rfl

/-- C4 (amended): a rest strictly inside an otherwise-beamable run lying in
one beat group, with at least two beamable notes on each side, splits the
run into exactly the two groups either side of the rest when
`beam_rests` is off, and yields the single continuous group spanning the
rest when `beam_rests` is on. The counterexample shows the two-group half
fails as stated when one side of the rest holds fewer than two notes. -/
theorem C4_rest_split_and_span (g0 : ℤ) (grest : List ℤ) (A B : List Tickable)
    (r : Tickable)
    (hA : ∀ t ∈ A, t.isRest = false ∧ beamableDur t = true ∧ 0 ≤ t.duration)
    (hB : ∀ t ∈ B, t.isRest = false ∧ beamableDur t = true ∧ 0 ≤ t.duration)
    (hr : r.isRest = true) (hrb : beamableDur r = true) (hrd : 0 ≤ r.duration)
    (hA2 : 2 ≤ A.length) (hB2 : 2 ≤ B.length)
    (hg0 : 0 < g0) (hgr : ∀ g ∈ grest, 0 < g)
    (hsum : durSum (A ++ r :: B) < g0) :
    beamNotes (generateBeams (A ++ r :: B) defaultBeamOptions (g0 :: grest)) = [A, B]
    ∧ beamNotes (generateBeams (A ++ r :: B) beamRestsOptions (g0 :: grest))
      = [A ++ r :: B] := by
  have hguard : ¬ (((g0 :: grest).isEmpty
      || (g0 :: grest).any fun g => decide (g ≤ 0)) = true) := by
    intro hcontra
    rw [List.isEmpty_cons, Bool.false_or] at hcontra
    rcases List.any_eq_true.mp hcontra with ⟨g, hgmem, hgle⟩
    have hgle2 : g ≤ 0 := of_decide_eq_true hgle
    rcases List.mem_cons.mp hgmem with h0 | h0
    · omega
    · have := hgr g h0
      omega
  have hdurA : 0 ≤ durSum A := durSum_nonneg A (fun t ht => (hA t ht).2.2)
  have hdurB : 0 ≤ durSum B := durSum_nonneg B (fun t ht => (hB t ht).2.2)
  have hsum2 : durSum A + (r.duration + durSum B) < g0 := by
    rw [durSum_append, durSum_cons] at hsum
    omega
  have hAne : A ≠ [] := by
    intro h0
    rw [h0] at hA2
    simp at hA2
  have hBne : B ≠ [] := by
    intro h0
    rw [h0] at hB2
    simp at hB2
  constructor
  · -- beam_rests off: the rest closes the first group, B forms the second
    unfold generateBeams
    rw [if_neg hguard, beamNotes_ok, List.map_map]
    show (groupSpans (g0 :: grest) defaultBeamOptions (A ++ r :: B)).map
      (fun sp => sp.2.2) = [A, B]
    unfold groupSpans runWalk
    rw [List.foldl_append, List.foldl_cons]
    rw [show initWalk (g0 :: grest) = ⟨0, g0, grest, 0, [], []⟩ from rfl]
    have hA' : A.foldl (stepT (g0 :: grest) defaultBeamOptions)
        ⟨0, g0, grest, 0, [], []⟩ = ⟨durSum A, g0, grest, 0, A, []⟩ := by
      rw [foldl_beamable_fresh (g0 :: grest) defaultBeamOptions A _
        (fun t ht => beamableWith_note _ t (hA t ht).1 (hA t ht).2.1)
        (fun t ht => (hA t ht).2.2)
        (by show (0 : ℤ) + durSum A < g0; omega) hAne rfl]
      show ({ (⟨0, g0, grest, 0, [], []⟩ : WalkState) with
          cur := A
          curStart := (0 : ℤ)
          elapsed := 0 + durSum A } : WalkState) = _
      rw [zero_add]
    rw [hA']
    have hr' : stepT (g0 :: grest) defaultBeamOptions ⟨durSum A, g0, grest, 0, A, []⟩ r
        = ⟨durSum A + r.duration, g0, grest, 0, [], [(0, durSum A, A)]⟩ := by
      unfold stepT
      rw [if_neg (by rw [beamableWith_rest_false r hr]; exact Bool.false_ne_true)]
      rw [checkBoundary_of_lt (g0 :: grest) _
        (by show durSum A + r.duration < g0; omega)]
      simp [closeGroup, hA2]
    rw [hr']
    have hB' : B.foldl (stepT (g0 :: grest) defaultBeamOptions)
        ⟨durSum A + r.duration, g0, grest, 0, [], [(0, durSum A, A)]⟩
        = ⟨durSum A + r.duration + durSum B, g0, grest,
            durSum A + r.duration, B, [(0, durSum A, A)]⟩ := by
      rw [foldl_beamable_fresh (g0 :: grest) defaultBeamOptions B _
        (fun t ht => beamableWith_note _ t (hB t ht).1 (hB t ht).2.1)
        (fun t ht => (hB t ht).2.2)
        (by show durSum A + r.duration + durSum B < g0; omega) hBne rfl]
    rw [hB']
    show (closeGroup ⟨durSum A + r.duration + durSum B, g0, grest,
        durSum A + r.duration, B, [(0, durSum A, A)]⟩).out.map (fun sp => sp.2.2)
      = [A, B]
    simp [closeGroup, hB2]
  · -- beam_rests on: the whole run forms one group spanning the rest
    unfold generateBeams
    rw [if_neg hguard, beamNotes_ok, List.map_map]
    show (groupSpans (g0 :: grest) beamRestsOptions (A ++ r :: B)).map
      (fun sp => sp.2.2) = [A ++ r :: B]
    unfold groupSpans runWalk
    rw [show initWalk (g0 :: grest) = ⟨0, g0, grest, 0, [], []⟩ from rfl]
    have hall : (A ++ r :: B).foldl (stepT (g0 :: grest) beamRestsOptions)
        ⟨0, g0, grest, 0, [], []⟩
        = ⟨durSum (A ++ r :: B), g0, grest, 0, A ++ r :: B, []⟩ := by
      rw [foldl_beamable_fresh (g0 :: grest) beamRestsOptions (A ++ r :: B) _
        ?_ ?_ (by show (0 : ℤ) + durSum (A ++ r :: B) < g0; omega)
        (by simp) rfl]
      · show ({ (⟨0, g0, grest, 0, [], []⟩ : WalkState) with
            cur := A ++ r :: B
            curStart := (0 : ℤ)
            elapsed := 0 + durSum (A ++ r :: B) } : WalkState) = _
        rw [zero_add]
      · intro t ht
        rcases List.mem_append.mp ht with h0 | h0
        · exact beamableWith_note _ t (hA t h0).1 (hA t h0).2.1
        · rcases List.mem_cons.mp h0 with h1 | h1
          · rw [h1]
            exact beamableWith_rest_true r hr hrb
          · exact beamableWith_note _ t (hB t h1).1 (hB t h1).2.1
      · intro t ht
        rcases List.mem_append.mp ht with h0 | h0
        · exact (hA t h0).2.2
        · rcases List.mem_cons.mp h0 with h1 | h1
          · rw [h1]
            exact hrd
          · exact (hB t h1).2.2
    rw [hall]
    have hlen : 2 ≤ (A ++ r :: B).length := by
      rw [List.length_append, List.length_cons]
      omega
    show (closeGroup ⟨durSum (A ++ r :: B), g0, grest, 0,
        A ++ r :: B, []⟩).out.map (fun sp => sp.2.2) = [A ++ r :: B]
    simp [closeGroup, hlen]
    rw [if_pos (show 2 ≤ A.length + (B.length + 1) by omega)]
    rfl

/-- A rest strictly inside an otherwise-beamable run, with only one note
before it (four 32nd-note slots in one 4/4 beat group). -/
def c4cexInput : List Tickable :=
  [mkNote 128 10, mkRest 128, mkNote 128 10, mkNote 128 10]

set_option maxRecDepth 4000 in
/-- C4 counterexample: on a run with a single note before the interior
rest, `beam_rests` off produces ONE beam group (the one-note side is
dropped, a beam needing at least two members), not the two separate
groups the claim asserts; the same input with `beam_rests` on does span
the rest as one group. -/
theorem C4_counterexample :
    (beamNotes (generateBeams c4cexInput defaultBeamOptions [1024])).length = 1
    ∧ beamNotes (generateBeams c4cexInput defaultBeamOptions [1024])
      = [[mkNote 128 10, mkNote 128 10]]
    ∧ beamNotes (generateBeams c4cexInput beamRestsOptions [1024]) = [c4cexInput] := by
  decide

/-- Witness for C4 with two 32nd notes on each side of a 32nd rest in one
4/4 beat group. -/
theorem C4_witness :
    beamNotes (generateBeams
        ([mkNote 128 10, mkNote 128 4] ++ mkRest 128 :: [mkNote 128 8, mkNote 128 6])
        defaultBeamOptions [1024])
      = [[mkNote 128 10, mkNote 128 4], [mkNote 128 8, mkNote 128 6]]
    ∧ beamNotes (generateBeams
        ([mkNote 128 10, mkNote 128 4] ++ mkRest 128 :: [mkNote 128 8, mkNote 128 6])
        beamRestsOptions [1024])
      = [[mkNote 128 10, mkNote 128 4] ++ mkRest 128 :: [mkNote 128 8, mkNote 128 6]] :=
  C4_rest_split_and_span 1024 [] [mkNote 128 10, mkNote 128 4]
    [mkNote 128 8, mkNote 128 6] (mkRest 128)
    (by decide) (by decide) rfl rfl (by decide) (by decide) (by decide)
    (by decide) (by decide) (by decide)

/-! ## Claim C5: group-sum compatibility and errors -/

/-- The claim's compatibility condition, stated as written: the declared
groups sum to a value that tiles the input's total duration (the repeated
cycle reaches the total exactly). -/
def specSumCompatible (groups : List ℤ) (total : ℤ) : Prop :=
  ∃ k : ℕ, total = k * groups.sum

/-- The `groupWithUnbeamableNote` test input: b4/16, b4/16, b4/4
(unbeamable), b4/16, b4/16 in 2/4 time, with declared groups [2/2]
(one whole note = 4096 ticks). -/
def unbeamableTestInput : List Tickable :=
  [mkNote 256 6, mkNote 256 6, mkNote 1024 6, mkNote 256 6, mkNote 256 6]

/-- C5 counterexample: the `groupWithUnbeamableNote` test passes groups
[2/2] with Tickables totalling a half note — the declared sum (4096
ticks) is not compatible with the total (2048 ticks) — yet generateBeams
succeeds (just as the in-repo test expects), emitting the two beamable
pairs; no InvalidBeamConfigurationError is raised. -/
theorem C5_counterexample :
    ¬ specSumCompatible [4096] (durSum unbeamableTestInput)
    ∧ (generateBeams unbeamableTestInput defaultBeamOptions [4096]).toOption.map
      (List.map (fun b => b.notes.length)) = some [2, 2] := by
  constructor
  · rintro ⟨k, hk⟩
    have h1 : durSum unbeamableTestInput = 2048 := by decide
    rw [h1] at hk
    have h2 : ([(4096 : ℤ)]).sum = 4096 := by decide
    rw [h2] at hk
    omega
  · decide

/-- C5 (amended): generateBeams performs no sum-compatibility validation:
for every input and every non-degenerate groups list (nonempty, all
durations positive), the call succeeds; declared boundaries beyond the
input's total duration are simply never reached.
InvalidBeamConfigurationError is reserved for degenerate groups lists. -/
theorem C5_succeeds_on_nondegenerate_groups (ts : List Tickable) (o : BeamOptions)
    (groups : List ℤ) (hne : groups ≠ []) (hpos : ∀ g ∈ groups, 0 < g) :
    ∃ bs, generateBeams ts o groups = .ok bs := by
  have hguard : ¬ ((groups.isEmpty || groups.any fun g => decide (g ≤ 0)) = true) := by
    intro hcontra
    rcases Bool.or_eq_true_iff.mp hcontra with h0 | h0
    · exact hne (List.isEmpty_iff.mp h0)
    · rcases List.any_eq_true.mp h0 with ⟨g, hgmem, hgle⟩
      have := hpos g hgmem
      have := of_decide_eq_true hgle
      omega
  refine ⟨(groupSpans groups o ts).map (fun sp =>
    { notes := sp.2.2, start := sp.1, stop := sp.2.1
      direction := resolveDirection o sp.2.2 }), ?_⟩
  unfold generateBeams
  rw [if_neg hguard]

/-- Witness for C5 at the `groupWithUnbeamableNote` configuration. -/
theorem C5_witness :
    ∃ bs, generateBeams unbeamableTestInput defaultBeamOptions [4096] = .ok bs :=
  C5_succeeds_on_nondegenerate_groups unbeamableTestInput defaultBeamOptions [4096]
    (by decide) (by decide)

/-! ## Claim C10: forced stem direction -/

/-- C10: when the stem_direction option is set, every emitted beam group's
resolved direction equals that value, regardless of the notes' pitch
extents — the per-group derivation is bypassed. -/
theorem C10_forced_stem_direction (ts : List Tickable) (o : BeamOptions)
    (groups : List ℤ) (bs : List BeamGroup) (d : Int)
    (hsd : o.stem_direction = some d)
    (h : generateBeams ts o groups = .ok bs) :
    ∀ b ∈ bs, b.direction = d := by
  unfold generateBeams at h
  split at h
  · exact absurd h (by simp)
  · rw [Except.ok.injEq] at h
    intro b hb
    rw [← h] at hb
    rcases List.mem_map.mp hb with ⟨sp, hsp, hspb⟩
    rw [← hspb]
    show resolveDirection o sp.2.2 = d
    unfold resolveDirection
    rw [hsd]

/-- The option set forcing stems down (the `flatBeamsDown` test passes
stem_direction = -1). -/
def forcedDownOptions : BeamOptions :=
  { beam_rests := false, maintain_stem_directions := false, stem_direction := some (-1) }

/-- 32nd notes lying on both sides of the middle line. -/
def mixedNotes : List Tickable :=
  [mkNote 128 7, mkNote 128 2, mkNote 128 12, mkNote 128 0]

/-- The beam groups emitted for `mixedNotes` under a forced down
direction. -/
def mixedBeams : List BeamGroup :=
  (generateBeams mixedNotes forcedDownOptions [1024]).toOption.getD []

set_option maxRecDepth 4000 in
/-- Witness for C10: a group of notes on both sides of the middle line
resolves to the forced direction. -/
theorem C10_witness : (mixedBeams.getD 0 noBeam).direction = -1 :=
  C10_forced_stem_direction mixedNotes forcedDownOptions [1024] mixedBeams (-1)
    rfl rfl (mixedBeams.getD 0 noBeam) (by decide)

/-! ## Voice (claim C6)

The Voice implementation file is not under src/; modelled from the spec
(section 4.3): an ordered Tickable sequence bound to a declared total
duration, with strict-mode overflow validation on append. -/

/-- Modelled from the spec: the error raised when a strict-mode Voice
would exceed its declared total. -/
inductive VoiceError where
  | voiceOverflow
deriving DecidableEq, Repr

/-- Modelled from the spec: a Voice owns its ordered Tickables, a declared
total duration (in ticks) and a strictness flag. -/
structure Voice where
  tickables : List Tickable
  totalDuration : ℤ
  strict : Bool
deriving DecidableEq, Repr

/-- The running "soft" total: the sum of the contained durations. -/
def Voice.ticksUsed (v : Voice) : ℤ := durSum v.tickables

/-- An empty strict-mode Voice with the given declared total. -/
def mkStrictVoice (total : ℤ) : Voice :=
  { tickables := [], totalDuration := total, strict := true }

/-- Modelled from the spec: append a Tickable, failing with
VoiceOverflowError when the running total would exceed the declared total
in strict mode. -/
def Voice.addTickable (v : Voice) (t : Tickable) : Except VoiceError Voice :=
  if v.strict ∧ v.totalDuration < v.ticksUsed + t.duration then
    .error .voiceOverflow
  else
    .ok { v with tickables := v.tickables ++ [t] }

/-- Append a whole list of Tickables in order. -/
def Voice.addAll (v : Voice) (ts : List Tickable) : Except VoiceError Voice :=
  ts.foldlM Voice.addTickable v

theorem Voice.addAll_ok (ts : List Tickable) :
    ∀ v : Voice, (∀ t ∈ ts, 0 ≤ t.duration) →
      v.ticksUsed + durSum ts ≤ v.totalDuration →
      v.addAll ts = .ok { v with tickables := v.tickables ++ ts } := by
  induction ts with
  | nil =>
    intro v _ _
    show Except.ok v = _
    rw [List.append_nil]
  | cons t ts ih =>
    intro v hd hsum
    unfold Voice.ticksUsed at hsum
    rw [durSum_cons] at hsum
    have hdt : 0 ≤ t.duration := hd t (List.mem_cons_self _ _)
    have hdsum : 0 ≤ durSum ts :=
      durSum_nonneg ts (fun x hx => hd x (List.mem_cons_of_mem _ hx))
    have hstep : v.addTickable t = .ok { v with tickables := v.tickables ++ [t] } := by
      unfold Voice.addTickable
      rw [if_neg]
      rintro ⟨_, hlt⟩
      unfold Voice.ticksUsed at hlt
      omega
    show (v.addTickable t).bind (fun v2 => v2.addAll ts) = _
    rw [hstep]
    show Voice.addAll { v with tickables := v.tickables ++ [t] } ts = _
    rw [ih { v with tickables := v.tickables ++ [t] }
      (fun x hx => hd x (List.mem_cons_of_mem _ hx))
      (by
        show durSum (v.tickables ++ [t]) + durSum ts ≤ v.totalDuration
        rw [durSum_append]
        have : durSum [t] = t.duration := by
          rw [durSum_cons]
          show t.duration + durSum [] = t.duration
          unfold durSum
          simp
        omega)]
    rw [List.append_assoc, List.singleton_append]

theorem Voice.addAll_preserves_bound (ts : List Tickable) :
    ∀ v v' : Voice, v.strict = true → v.ticksUsed ≤ v.totalDuration →
      v.addAll ts = .ok v' →
      v'.ticksUsed ≤ v'.totalDuration ∧ v'.strict = true
        ∧ v'.totalDuration = v.totalDuration := by
  induction ts with
  | nil =>
    intro v v' hs hb h
    have : v = v' := by
      have h2 : (Except.ok v : Except VoiceError Voice) = Except.ok v' := h
      rw [Except.ok.injEq] at h2
      exact h2
    rw [← this]
    exact ⟨hb, hs, rfl⟩
  | cons t ts ih =>
    intro v v' hs hb h
    have h2 : Except.bind (v.addTickable t) (fun v2 => v2.addAll ts)
        = .ok v' := h
    unfold Voice.addTickable at h2
    split at h2
    · exact absurd h2 (by simp [Except.bind])
    · rename_i hcond
      have h3 : Voice.addAll { v with tickables := v.tickables ++ [t] } ts
          = Except.ok v' := h2
      have hbound : durSum (v.tickables ++ [t]) ≤ v.totalDuration := by
        rw [durSum_append]
        by_cases hdt : v.totalDuration < v.ticksUsed + t.duration
        · exact absurd ⟨hs, hdt⟩ hcond
        · unfold Voice.ticksUsed at hdt
          have : durSum [t] = t.duration := by
            rw [durSum_cons]
            show t.duration + durSum [] = t.duration
            unfold durSum
            simp
          omega
      exact ih { v with tickables := v.tickables ++ [t] } v' hs hbound h3

/-- C6: for a strict-mode Voice with a non-negative declared total,
appending Tickables whose durations sum exactly to the total succeeds;
once the total is reached appending any further Tickable of positive
duration fails with VoiceOverflowError; and every sequence of successful
appends keeps the running total at or below the declared total. -/
theorem C6_strict_voice_overflow (total : ℤ) (L : List Tickable) (t : Tickable)
    (htot : 0 ≤ total) (hL : ∀ x ∈ L, 0 ≤ x.duration) (hsum : durSum L = total)
    (ht : 0 < t.duration) :
    ((mkStrictVoice total).addAll L
        = .ok { tickables := L, totalDuration := total, strict := true })
    ∧ (∀ v' : Voice, (mkStrictVoice total).addAll L = .ok v' →
        v'.addTickable t = .error .voiceOverflow)
    ∧ (∀ (ts : List Tickable) (v' : Voice),
        (mkStrictVoice total).addAll ts = .ok v' → v'.ticksUsed ≤ total) := by
  have hok : (mkStrictVoice total).addAll L
      = .ok { tickables := L, totalDuration := total, strict := true } := by
    rw [Voice.addAll_ok L (mkStrictVoice total) hL
      (by
        show durSum [] + durSum L ≤ total
        rw [hsum]
        unfold durSum
        simp)]
    rw [show ({ mkStrictVoice total with
        tickables := (mkStrictVoice total).tickables ++ L } : Voice)
      = { tickables := [] ++ L, totalDuration := total, strict := true } from rfl]
    rw [List.nil_append]
  refine ⟨hok, ?_, ?_⟩
  · intro v' h
    rw [hok, Except.ok.injEq] at h
    rw [← h]
    unfold Voice.addTickable
    rw [if_pos]
    constructor
    · rfl
    · show total < Voice.ticksUsed _ + t.duration
      unfold Voice.ticksUsed
      show total < durSum L + t.duration
      rw [hsum]
      omega
  · intro ts v' h
    have hb := Voice.addAll_preserves_bound ts (mkStrictVoice total) v' rfl
      (by
        show durSum [] ≤ total
        unfold durSum
        simp
        omega) h
    rw [hb.2.2] at hb
    exact hb.1

/-- Witness for C6: a 4/4 voice (4096 ticks) filled by a half plus two
quarters, then one more sixteenth overflows. -/
theorem C6_witness :
    ((mkStrictVoice 4096).addAll
        [mkNote 2048 6, mkNote 1024 6, mkNote 1024 6]
      = .ok { tickables := [mkNote 2048 6, mkNote 1024 6, mkNote 1024 6],
              totalDuration := 4096, strict := true })
    ∧ (∀ v' : Voice, (mkStrictVoice 4096).addAll
          [mkNote 2048 6, mkNote 1024 6, mkNote 1024 6] = .ok v' →
        v'.addTickable (mkNote 256 6) = .error .voiceOverflow)
    ∧ (∀ (ts : List Tickable) (v' : Voice),
        (mkStrictVoice 4096).addAll ts = .ok v' → v'.ticksUsed ≤ 4096) :=
  C6_strict_voice_overflow 4096 [mkNote 2048 6, mkNote 1024 6, mkNote 1024 6]
    (mkNote 256 6) (by decide) (by decide) (by decide) (by decide)

/-! ## Formatter (claims C7 and C8)

The Formatter implementation file is not under src/; modelled from the
spec (section 4.4): merge all voices onto one timeline keyed by cumulative
offset (ticks), give each timeline column the maximum intrinsic width of
its simultaneous Tickables (whole pixels), sum the column widths to get
the minimum total width, and distribute any surplus proportionally to the
columns' duration spans. Every Tickable's x coordinate is looked up from
the one shared offset-to-x mapping `xOf`. -/

/-- Modelled from the spec: a Tickable as the Formatter sees it, with a
duration (ticks) and an intrinsic width requirement (pixels). -/
structure FTick where
  duration : ℤ
  width : ℤ
deriving DecidableEq, Repr

/-- Pair each Tickable of one voice with its cumulative offset. -/
def withOffsets : ℤ → List FTick → List (ℤ × FTick)
  | _, [] => []
  | acc, t :: r => (acc, t) :: withOffsets (acc + t.duration) r

/-- All (offset, Tickable) events of all voices. -/
def allEvents (vs : List (List FTick)) : List (ℤ × FTick) :=
  (vs.map (withOffsets 0)).flatten

/-- The shared timeline: the set of distinct cumulative offsets. -/
def offsetSet (vs : List (List FTick)) : Finset ℤ :=
  ((allEvents vs).map Prod.fst).toFinset

/-- Modelled from the spec: a column's minimum width is the maximum of the
intrinsic widths of the Tickables at that offset (a max, not a sum,
because simultaneous notes render at the same x). -/
def colWidth (vs : List (List FTick)) (o : ℤ) : ℤ :=
  ((allEvents vs).filter (fun p => decide (p.1 = o))).foldr
    (fun p m => max p.2.width m) 0

/-- Modelled from the spec: the minimum total width is the sum of the
column minimum widths. -/
def minTotalWidth (vs : List (List FTick)) : ℤ :=
  Finset.sum (offsetSet vs) (colWidth vs)

/-- The total duration of one voice. -/
def voiceEnd (v : List FTick) : ℤ := (v.map FTick.duration).sum

/-- The end of the timeline: the longest voice's total duration. -/
def timelineEnd (vs : List (List FTick)) : ℤ :=
  (vs.map voiceEnd).foldr max 0

/-- The duration span of the column at offset o: up to the next column,
or to the end of the timeline for the last column. -/
def spanOf (vs : List (List FTick)) (o : ℤ) : ℤ :=
  (if h : ((offsetSet vs).filter (fun c => o < c)).Nonempty
    then ((offsetSet vs).filter (fun c => o < c)).min' h
    else timelineEnd vs) - o

/-- The summed span weight over all columns. -/
def totalSpan (vs : List (List FTick)) : ℤ :=
  Finset.sum (offsetSet vs) (spanOf vs)

/-- Modelled from the spec: the surplus width over the minimum is
distributed proportionally to the columns' duration spans. -/
def extraOf (vs : List (List FTick)) (W : ℤ) (o : ℤ) : ℚ :=
  ((W - minTotalWidth vs : ℤ) : ℚ) * ((spanOf vs o : ℤ) : ℚ)
    / ((totalSpan vs : ℤ) : ℚ)

/-- The shared offset-to-x mapping: a column's x coordinate is the total
width assigned to all earlier columns. -/
def xOf (vs : List (List FTick)) (W : ℤ) (off : ℤ) : ℚ :=
  Finset.sum ((offsetSet vs).filter (fun c => c < off))
    (fun o => (colWidth vs o : ℚ) + extraOf vs W o)

/-- Modelled from the spec: the error raised when the requested stave
width is below the computed minimum. -/
inductive FormatError where
  | insufficientWidth
deriving DecidableEq, Repr

/-- Modelled from the spec: `formatToStave` fails when the requested width
is below the computed minimum; otherwise every Tickable of every voice
receives its x coordinate by looking up its cumulative offset in the one
shared mapping `xOf`. -/
def formatToStave (vs : List (List FTick)) (W : ℤ) :
    Except FormatError (List (List ℚ)) :=
  if W < minTotalWidth vs then .error .insufficientWidth
  else .ok (vs.map (fun v => (withOffsets 0 v).map (fun p => xOf vs W p.1)))

/-- The cumulative offset of Tickable k of voice i. -/
def offAt (vs : List (List FTick)) (i k : ℕ) : ℤ :=
  (((vs.getD i []).map FTick.duration).take k).sum

/-- The sorted list of timeline columns. -/
def sortedCols (vs : List (List FTick)) : List ℤ :=
  (offsetSet vs).sort (fun a b => a ≤ b)

theorem withOffsets_length (v : List FTick) :
    ∀ acc : ℤ, (withOffsets acc v).length = v.length := by
  induction v with
  | nil =>
    intro acc
    rfl
  | cons t v ih =>
    intro acc
    show (withOffsets (acc + t.duration) v).length + 1 = v.length + 1
    rw [ih]

theorem withOffsets_fst (v : List FTick) :
    ∀ (acc : ℤ) (k : ℕ), k < v.length →
      ((withOffsets acc v).getD k (0, FTick.mk 0 0)).1
        = acc + ((v.map FTick.duration).take k).sum := by
  induction v with
  | nil =>
    intro acc k hk
    simp at hk
  | cons t v ih =>
    intro acc k hk
    cases k with
    | zero =>
      show acc = acc + ((List.map FTick.duration (t :: v)).take 0).sum
      simp
    | succ k2 =>
      show ((withOffsets (acc + t.duration) v).getD k2 (0, FTick.mk 0 0)).1 = _
      rw [ih (acc + t.duration) k2 (by simpa using hk)]
      rw [List.map_cons, List.take_succ_cons, List.sum_cons]
      ring

theorem getD_map {α β : Type} (f : α → β) (l : List α) (k : ℕ) (d : α) :
    (l.map f).getD k (f d) = f (l.getD k d) := by
  induction l generalizing k with
  | nil => cases k <;> rfl
  | cons a l ih =>
    cases k with
    | zero => rfl
    | succ k2 => exact ih k2

theorem getD_map_lt {α β : Type} (f : α → β) (l : List α) (k : ℕ) (d : β)
    (d2 : α) (hk : k < l.length) : (l.map f).getD k d = f (l.getD k d2) := by
  induction l generalizing k with
  | nil => simp at hk
  | cons a l ih =>
    cases k with
    | zero => rfl
    | succ k2 => exact ih k2 (by simpa using hk)

set_option maxHeartbeats 1000000 in
theorem formatToStave_xAt (vs : List (List FTick)) (W : ℤ) (i k : ℕ)
    (hk : k < (vs.getD i []).length) :
    ((vs.map (fun v => (withOffsets 0 v).map (fun p => xOf vs W p.1))).getD i []).getD k 0
      = xOf vs W (offAt vs i k) := by
  have hi : i < vs.length := by
    by_contra hge
    push_neg at hge
    rw [List.getD_eq_default vs [] hge] at hk
    simp at hk
  have h1 : (vs.map (fun v => (withOffsets 0 v).map (fun p => xOf vs W p.1))).getD i []
      = (withOffsets 0 (vs.getD i [])).map (fun p => xOf vs W p.1) :=
    getD_map_lt (fun v => (withOffsets 0 v).map (fun p => xOf vs W p.1)) vs i [] [] hi
  rw [h1]
  rw [getD_map_lt (fun p => xOf vs W p.1) (withOffsets 0 (vs.getD i [])) k 0
    (0, FTick.mk 0 0) (by rw [withOffsets_length]; exact hk)]
  show xOf vs W (((withOffsets 0 (vs.getD i [])).getD k (0, FTick.mk 0 0)).1) = _
  rw [withOffsets_fst (vs.getD i []) 0 k hk, zero_add]
  rfl

/-- C7: after a successful joint formatToStave, any two Tickables (from
any voices) whose cumulative offsets from the measure start are equal
receive identical x coordinates, because every x is looked up from the
one shared offset-to-x mapping. -/
theorem C7_equal_offsets_equal_x (vs : List (List FTick)) (W : ℤ)
    (xs : List (List ℚ)) (i j k l : ℕ)
    (h : formatToStave vs W = .ok xs)
    (hik : k < (vs.getD i []).length) (hjl : l < (vs.getD j []).length)
    (heq : offAt vs i k = offAt vs j l) :
    (xs.getD i []).getD k 0 = (xs.getD j []).getD l 0 := by
  unfold formatToStave at h
  split at h
  · exact absurd h (by simp)
  · rw [Except.ok.injEq] at h
    rw [← h]
    rw [formatToStave_xAt vs W i k hik, formatToStave_xAt vs W j l hjl, heq]

/-- Two voices of different subdivision: two eighth notes against an
eighth and an eighth of different widths; offset 512 is shared. -/
def exVoices : List (List FTick) :=
  [[FTick.mk 512 10, FTick.mk 512 10], [FTick.mk 512 12, FTick.mk 512 9]]

/-- The x rows produced for `exVoices` at the minimum total width. -/
def exXs : List (List ℚ) :=
  (formatToStave exVoices (minTotalWidth exVoices)).toOption.getD []

/-- Witness for C7: the second Tickables of the two voices share offset
512 and receive the same x. -/
theorem C7_witness :
    (exXs.getD 0 []).getD 1 0 = (exXs.getD 1 []).getD 1 0 :=
  C7_equal_offsets_equal_x exVoices (minTotalWidth exVoices) exXs 0 1 1 1
    rfl (by decide) (by decide) (by decide)

theorem extraOf_min (vs : List (List FTick)) (o : ℤ) :
    extraOf vs (minTotalWidth vs) o = 0 := by
  unfold extraOf
  rw [sub_self]
  simp

theorem xOf_min (vs : List (List FTick)) (off : ℤ) :
    xOf vs (minTotalWidth vs) off
      = Finset.sum ((offsetSet vs).filter (fun c => c < off))
          (fun o => (colWidth vs o : ℚ)) := by
  unfold xOf
  apply Finset.sum_congr rfl
  intro o _
  rw [extraOf_min, add_zero]

theorem sortedCols_sorted_lt (vs : List (List FTick)) :
    (sortedCols vs).Sorted (fun a b => a < b) :=
  Finset.sort_sorted_lt _

theorem mem_sortedCols (vs : List (List FTick)) (a : ℤ) :
    a ∈ sortedCols vs ↔ a ∈ offsetSet vs :=
  Finset.mem_sort _

theorem filter_lt_succ_col (vs : List (List FTick)) (n : ℕ)
    (h1 : n < (sortedCols vs).length) (h2 : n + 1 < (sortedCols vs).length) :
    (offsetSet vs).filter (fun c => c < (sortedCols vs).get ⟨n + 1, h2⟩)
      = insert ((sortedCols vs).get ⟨n, h1⟩)
          ((offsetSet vs).filter (fun c => c < (sortedCols vs).get ⟨n, h1⟩)) := by
  have hmono : StrictMono (sortedCols vs).get :=
    List.Sorted.get_strictMono (sortedCols_sorted_lt vs)
  apply Finset.ext
  intro x
  simp only [Finset.mem_filter, Finset.mem_insert]
  constructor
  · rintro ⟨hxs, hxlt⟩
    obtain ⟨m, hm⟩ := List.get_of_mem ((mem_sortedCols vs x).mpr hxs)
    have hmlt : (m : ℕ) < n + 1 := by
      by_contra hge
      push_neg at hge
      have hle : (⟨n + 1, h2⟩ : Fin (sortedCols vs).length) ≤ m := hge
      have h3 := hmono.monotone hle
      rw [hm] at h3
      exact absurd hxlt (not_lt.mpr h3)
    by_cases hmn : (m : ℕ) = n
    · left
      rw [← hm]
      congr 1
      exact Fin.ext hmn
    · right
      refine ⟨hxs, ?_⟩
      have hlt2 : m < (⟨n, h1⟩ : Fin (sortedCols vs).length) := by
        rw [Fin.lt_def]
        show (m : ℕ) < n
        omega
      have h4 := hmono hlt2
      rw [hm] at h4
      exact h4
  · rintro (rfl | ⟨hxs, hxlt⟩)
    · constructor
      · exact (mem_sortedCols vs _).mp (List.get_mem (sortedCols vs) n h1)
      · exact hmono (by rw [Fin.lt_def]; show n < n + 1; omega)
    · exact ⟨hxs, lt_trans hxlt (hmono (by rw [Fin.lt_def]; show n < n + 1; omega))⟩

/-- C8: formatToStave fails with InsufficientWidthError for every
requested width strictly below the computed minimum; coordinates are
produced only when the width is at least the minimum (so a failed call
yields none); the call succeeds at exactly the minimum width; and at the
minimum width consecutive timeline columns sit exactly one column-width
apart — zero overlap (and zero slack). -/
theorem C8_min_width_behaviour (vs : List (List FTick)) (W : ℤ) :
    (W < minTotalWidth vs → formatToStave vs W = .error .insufficientWidth)
    ∧ (∀ xs, formatToStave vs W = .ok xs → minTotalWidth vs ≤ W)
    ∧ (formatToStave vs (minTotalWidth vs)
        = .ok (vs.map (fun v => (withOffsets 0 v).map
            (fun p => xOf vs (minTotalWidth vs) p.1))))
    ∧ (∀ (n : ℕ) (h1 : n < (sortedCols vs).length)
        (h2 : n + 1 < (sortedCols vs).length),
        xOf vs (minTotalWidth vs) ((sortedCols vs).get ⟨n + 1, h2⟩)
          = xOf vs (minTotalWidth vs) ((sortedCols vs).get ⟨n, h1⟩)
            + (colWidth vs ((sortedCols vs).get ⟨n, h1⟩) : ℚ)) := by
  refine ⟨?_, ?_, ?_, ?_⟩
  · intro hlt
    unfold formatToStave
    rw [if_pos hlt]
  · intro xs h
    unfold formatToStave at h
    split at h
    · exact absurd h (by simp)
    · rename_i hge
      omega
  · unfold formatToStave
    rw [if_neg (by omega)]
  · intro n h1 h2
    rw [xOf_min, xOf_min, filter_lt_succ_col vs n h1 h2, Finset.sum_insert]
    · rw [add_comm]
    · simp only [Finset.mem_filter]
      rintro ⟨_, hlt⟩
      exact absurd hlt (lt_irrefl _)

/-- Witness for C8: one pixel below the minimum fails; exactly the
minimum succeeds. -/
theorem C8_witness :
    formatToStave exVoices (minTotalWidth exVoices - 1)
        = .error .insufficientWidth
    ∧ formatToStave exVoices (minTotalWidth exVoices)
        = .ok (exVoices.map (fun v => (withOffsets 0 v).map
            (fun p => xOf exVoices (minTotalWidth exVoices) p.1))) :=
  ⟨(C8_min_width_behaviour exVoices (minTotalWidth exVoices - 1)).1 (by omega),
    (C8_min_width_behaviour exVoices (minTotalWidth exVoices)).2.2.1⟩

end VexFlow
